/-
  Verification of `Solution.avoidFlood` from
  `src/pythonLeetCode/Avoid_Flood_in_The_City.py`.

  The Python function scans the rain schedule left to right, keeping
  * `result`     : the action schedule, initialised to `[-1] * n`;
  * `full_lakes` : a dict mapping each full lake to the day it became full;
  * `dry_days`   : the ascending list of dry days not yet assigned an action.
  On a rainy day hitting an already-full lake it picks, by
  `bisect.bisect_right`, the first recorded dry day strictly after the day
  the lake became full, assigns that day to empty the lake, and removes it
  from the pool; if no such dry day exists it returns `[]` at once.
  After the scan, leftover dry days are assigned the placeholder lake `1`.

  Lake ids are non-negative integers (`0` = dry day), so the rain schedule
  is embedded as `List Nat`; the action schedule holds `-1` on rainy days,
  hence `List Int`.
-/
import Mathlib

namespace AvoidFlood

/-- Scan state of `avoidFlood`: the Python locals `result`, `full_lakes`
(dict, embedded as a function to `Option`) and `dry_days`. -/
structure St where
  result : List Int
  full_lakes : Nat → Option Nat
  dry_days : List Nat

/-- Models Python's `bisect.bisect_right a x` under the invariant, maintained
by `avoidFlood`, that `a` is sorted ascending: the insertion point for `x`
keeping sorted order, i.e. the index of the first element strictly greater
than `x`, or `a.length` when there is none. -/
def bisect_right (a : List Nat) (x : Nat) : Nat :=
  a.findIdx (fun j => decide (x < j))

/-- One iteration of the `for i in range(n)` loop of `avoidFlood`.
`none` models the early `return []`.  In the rescue branch the Python code
does `del full_lakes[lake]` and then, falling out of the `if`, unconditionally
`full_lakes[lake] = i`; the net effect on the dict is the single update
`lake ↦ i` performed here. -/
def step (rains : List Nat) (s : St) (i : Nat) : Option St :=
  if rains.getD i 0 = 0 then
    -- dry day: add to available dry days
    some { s with dry_days := s.dry_days ++ [i] }
  else
    let lake := rains.getD i 0
    match s.full_lakes lake with
    | some last_full_day =>
        let idx := bisect_right s.dry_days last_full_day
        if hidx : idx < s.dry_days.length then
          let dry_day := s.dry_days.get ⟨idx, hidx⟩
          some { result := s.result.set dry_day (Int.ofNat lake),
                 full_lakes := fun l => if l = lake then some i else s.full_lakes l,
                 dry_days := s.dry_days.eraseIdx idx }
        else
          -- no dry day available after the lake became full: return []
          none
    | none =>
        some { s with full_lakes := fun l => if l = lake then some i else s.full_lakes l }

/-- The loop `for i in range(n)`, run over the list of remaining indices;
`none` propagates the early `return []`. -/
def runDays (rains : List Nat) : List Nat → St → Option St
  | [], s => some s
  | i :: rest, s =>
      match step rains s i with
      | none => none
      | some s1 => runDays rains rest s1

/-- Initial state: `result = [-1] * n`, empty dict, empty dry-day list. -/
def initSt (n : Nat) : St :=
  { result := List.replicate n (-1), full_lakes := fun _ => none, dry_days := [] }

/-- The final pass `for day in dry_days: result[day] = 1`. -/
def finalize (s : St) : List Int :=
  s.dry_days.foldl (fun res day => res.set day 1) s.result

/-- `Solution.avoidFlood`: the whole function.  Returns `[]` when the loop
hit the infeasible early return, otherwise the finalized result. -/
def avoidFlood (rains : List Nat) : List Int :=
  match runDays rains (List.range rains.length) (initSt rains.length) with
  | none => []
  | some s => finalize s

/-- Replay of a rain schedule against an action schedule, over the listed
days, carrying the set of currently full lakes.  A dry day empties the lake
named by the plan (when positive); a rainy day on a full lake is a flood and
the replay reports `false`. -/
def replayGo (rains : List Nat) (plan : List Int) : List Nat → (Nat → Bool) → Bool
  | [], _ => true
  | i :: rest, full =>
      let r := rains.getD i 0
      if r = 0 then
        let p := plan.getD i (-1)
        let full1 := if 0 < p then (fun l => if l = p.toNat then false else full l) else full
        replayGo rains plan rest full1
      else
        if full r then false
        else replayGo rains plan rest (fun l => if l = r then true else full l)

/-- `noFlood rains plan` replays `rains` emptying lakes as `plan` directs,
starting from all lakes empty, and reports whether no lake ever floods. -/
def noFlood (rains : List Nat) (plan : List Int) : Bool :=
  replayGo rains plan (List.range rains.length) (fun _ => false)

/-- The scan invariant, holding before day `i` is processed:
`result` keeps its length; `dry_days` is strictly ascending and holds exactly
the still-unassigned dry days before `i`; `full_lakes L` is the last day `L`
received rain (when it did); rainy-day and not-yet-seen entries of `result`
are `-1`; assigned entries are positive lake ids at already-scanned dry days. -/
structure Inv (rains : List Nat) (i : Nat) (s : St) : Prop where
  len : s.result.length = rains.length
  sorted : s.dry_days.Pairwise (· < ·)
  pool : ∀ j ∈ s.dry_days, j < i ∧ rains.getD j 0 = 0 ∧ s.result.getD j (-1) = -1
  lakes : ∀ L d, s.full_lakes L = some d ↔
    (0 < L ∧ d < i ∧ rains.getD d 0 = L ∧ ∀ k, d < k → k < i → rains.getD k 0 ≠ L)
  rainy : ∀ j, rains.getD j 0 ≠ 0 → s.result.getD j (-1) = -1
  dryDone : ∀ j, j < i → rains.getD j 0 = 0 → j ∈ s.dry_days ∨ 0 < s.result.getD j (-1)
  future : ∀ j, i ≤ j → s.result.getD j (-1) = -1
  assigned : ∀ j, 0 < s.result.getD j (-1) →
    rains.getD j 0 = 0 ∧ ∃ L d i2, s.result.getD j (-1) = Int.ofNat L ∧ 0 < L ∧
      d < j ∧ j < i2 ∧ i2 < i ∧ rains.getD d 0 = L ∧ rains.getD i2 0 = L ∧
      ∀ k, d < k → k < i2 → rains.getD k 0 ≠ L

theorem getD_set_self (l : List Int) (j : Nat) (v : Int) (h : j < l.length) :
    (l.set j v).getD j (-1) = v := by
  simp [List.getD_eq_getElem?_getD, List.getElem?_set_self h]

theorem getD_set_ne (l : List Int) (i j : Nat) (v : Int) (h : i ≠ j) :
    (l.set i v).getD j (-1) = l.getD j (-1) := by
  simp [List.getD_eq_getElem?_getD, List.getElem?_set_ne h]

theorem bisect_right_le_length (a : List Nat) (x : Nat) :
    bisect_right a x ≤ a.length :=
  List.findIdx_le_length _

theorem bisect_right_get_gt (a : List Nat) (x : Nat)
    (h : bisect_right a x < a.length) : x < a.get ⟨bisect_right a x, h⟩ := by
  have h1 : a.findIdx (fun j => decide (x < j)) < a.length := h
  have := List.findIdx_getElem (w := h1)
  simpa using this

theorem le_of_lt_bisect_right (a : List Nat) (x : Nat) (m : Nat)
    (h : m < bisect_right a x) :
    a.get ⟨m, Nat.lt_of_lt_of_le h (bisect_right_le_length a x)⟩ ≤ x := by
  have h1 : m < a.findIdx (fun j => decide (x < j)) := h
  have := List.not_of_lt_findIdx h1
  simp only [decide_eq_false_iff_not, Nat.not_lt] at this
  exact this

theorem bisect_right_eq_length_iff (a : List Nat) (x : Nat) :
    bisect_right a x = a.length ↔ ∀ j ∈ a, j ≤ x := by
  unfold bisect_right
  rw [List.findIdx_eq_length]
  constructor
  · intro h j hj
    have := h j hj
    simpa using this
  · intro h j hj
    simpa using h j hj

/-- Among the members of a strictly ascending list, the element picked by
`bisect_right` is the least one strictly greater than `x`. -/
theorem bisect_right_min (a : List Nat) (x : Nat)
    (hs : a.Pairwise (· < ·)) (h : bisect_right a x < a.length)
    (k : Nat) (hk : k ∈ a) (hxk : x < k) : a.get ⟨bisect_right a x, h⟩ ≤ k := by
  obtain ⟨m, hm, rfl⟩ := List.mem_iff_getElem.1 hk
  rcases Nat.lt_trichotomy m (bisect_right a x) with hlt | heq | hgt
  · have := le_of_lt_bisect_right a x m hlt
    simp only [List.get_eq_getElem] at this
    omega
  · subst heq
    simp [List.get_eq_getElem]
  · have := (List.pairwise_iff_getElem.1 hs) (bisect_right a x) m h hm hgt
    simp only [List.get_eq_getElem]
    omega

theorem Inv_init (rains : List Nat) : Inv rains 0 (initSt rains.length) := by
  constructor
  · simp [initSt]
  · simp [initSt]
  · simp [initSt]
  · intro L d
    simp [initSt]
  · intro j _
    simp only [initSt, List.getD_eq_getElem?_getD, List.getElem?_replicate]
    split <;> simp
  · intro j hj
    omega
  · intro j _
    simp only [initSt, List.getD_eq_getElem?_getD, List.getElem?_replicate]
    split <;> simp
  · intro j hj
    exfalso
    simp only [initSt, List.getD_eq_getElem?_getD, List.getElem?_replicate] at hj
    rcases Nat.decLt j rains.length with hlt | hlt
    · rw [if_neg hlt] at hj
      exact absurd hj (by decide)
    · rw [if_pos hlt] at hj
      exact absurd hj (by decide)

theorem step_dry (rains : List Nat) (s : St) (i : Nat) (h : rains.getD i 0 = 0) :
    step rains s i = some { s with dry_days := s.dry_days ++ [i] } := by
  unfold step
  rw [if_pos h]

theorem step_not_full (rains : List Nat) (s : St) (i : Nat)
    (h : rains.getD i 0 ≠ 0) (hf : s.full_lakes (rains.getD i 0) = none) :
    step rains s i = some { s with
      full_lakes := fun l => if l = rains.getD i 0 then some i else s.full_lakes l } := by
  simp only [step, if_neg h]
  rw [hf]

theorem step_rescue (rains : List Nat) (s : St) (i d : Nat)
    (h : rains.getD i 0 ≠ 0) (hf : s.full_lakes (rains.getD i 0) = some d)
    (hidx : bisect_right s.dry_days d < s.dry_days.length) :
    step rains s i = some
      { result := s.result.set (s.dry_days.get ⟨bisect_right s.dry_days d, hidx⟩)
          (Int.ofNat (rains.getD i 0)),
        full_lakes := fun l => if l = rains.getD i 0 then some i else s.full_lakes l,
        dry_days := s.dry_days.eraseIdx (bisect_right s.dry_days d) } := by
  simp only [step, if_neg h]
  rw [hf]
  simp only [dif_pos hidx]

theorem step_fail (rains : List Nat) (s : St) (i d : Nat)
    (h : rains.getD i 0 ≠ 0) (hf : s.full_lakes (rains.getD i 0) = some d)
    (hidx : ¬ bisect_right s.dry_days d < s.dry_days.length) :
    step rains s i = none := by
  simp only [step, if_neg h]
  rw [hf]
  simp only [dif_neg hidx]

theorem pool_nodup {l : List Nat} (h : l.Pairwise (· < ·)) : l.Nodup :=
  h.imp (fun hab => Nat.ne_of_lt hab)

theorem mem_eraseIdx_of_ne {l : List Nat} {j : Nat} (hj : j ∈ l)
    {idx : Nat} (hidx : idx < l.length) (hne : j ≠ l.get ⟨idx, hidx⟩) :
    j ∈ l.eraseIdx idx := by
  obtain ⟨m, hm, rfl⟩ := List.mem_iff_getElem.1 hj
  rw [List.mem_eraseIdx_iff_getElem?]
  refine ⟨m, ?_, List.getElem?_eq_getElem hm⟩
  intro hmeq
  subst hmeq
  exact hne (by simp [List.get_eq_getElem])

theorem ne_get_of_mem_eraseIdx {l : List Nat} (hnd : l.Nodup) {j idx : Nat}
    (hidx : idx < l.length) (hj : j ∈ l.eraseIdx idx) :
    j ≠ l.get ⟨idx, hidx⟩ := by
  rw [List.mem_eraseIdx_iff_getElem?] at hj
  obtain ⟨m, hm_ne, hm⟩ := hj
  have hmlt : m < l.length := by
    by_contra hc
    rw [List.getElem?_eq_none (Nat.le_of_not_lt hc)] at hm
    cases hm
  rw [List.getElem?_eq_getElem hmlt] at hm
  intro heq
  apply hm_ne
  rw [← @List.Nodup.getElem_inj_iff _ _ hnd m hmlt idx hidx]
  have h2 := Option.some.inj hm
  rw [h2, heq]
  simp [List.get_eq_getElem]

/-- Updating the last-full map at the day-`i` rain lake preserves its
characterization as "last rain day before the scan position". -/
theorem lakes_update (rains : List Nat) (i : Nat) (f : Nat → Option Nat)
    (hlakes : ∀ L d, f L = some d ↔
      (0 < L ∧ d < i ∧ rains.getD d 0 = L ∧ ∀ k, d < k → k < i → rains.getD k 0 ≠ L))
    (hr : rains.getD i 0 ≠ 0) :
    ∀ L d, (if L = rains.getD i 0 then some i else f L) = some d ↔
      (0 < L ∧ d < i + 1 ∧ rains.getD d 0 = L ∧
        ∀ k, d < k → k < i + 1 → rains.getD k 0 ≠ L) := by
  intro L d
  by_cases hL : L = rains.getD i 0
  · rw [if_pos hL]
    constructor
    · intro h
      have hd : i = d := Option.some.inj h
      subst hd
      refine ⟨by omega, Nat.lt_succ_self i, hL.symm, ?_⟩
      intro k hk1 hk2
      omega
    · rintro ⟨hL0, hdlt, hrd, hnone⟩
      have hd : d = i := by
        by_contra hne
        have hdi : d < i := by omega
        exact hnone i hdi (Nat.lt_succ_self i) hL.symm
      rw [hd]
  · rw [if_neg hL, hlakes L d]
    constructor
    · rintro ⟨hL0, hdlt, hrd, hnone⟩
      refine ⟨hL0, by omega, hrd, ?_⟩
      intro k hk1 hk2
      rcases Nat.lt_or_ge k i with hki | hki
      · exact hnone k hk1 hki
      · have hki2 : k = i := by omega
        subst hki2
        exact fun hc => hL hc.symm
    · rintro ⟨hL0, hdlt, hrd, hnone⟩
      have hdi : d < i := by
        by_contra h1
        have hdi2 : d = i := by omega
        subst hdi2
        exact hL hrd.symm
      exact ⟨hL0, hdi, hrd, fun k hk1 hk2 => hnone k hk1 (by omega)⟩

/-- One loop iteration preserves the scan invariant. -/
theorem step_preserves (rains : List Nat) (i : Nat) (s s1 : St)
    (hi : i < rains.length) (hInv : Inv rains i s)
    (hstep : step rains s i = some s1) : Inv rains (i + 1) s1 := by
  by_cases hr : rains.getD i 0 = 0
  · rw [step_dry rains s i hr] at hstep
    have hs1 : s1 = { s with dry_days := s.dry_days ++ [i] } :=
      (Option.some.inj hstep).symm
    subst hs1
    constructor
    · exact hInv.len
    · rw [List.pairwise_append]
      exact ⟨hInv.sorted, List.pairwise_singleton _ _,
        fun a ha b hb => by
          rw [List.mem_singleton] at hb
          exact hb ▸ (hInv.pool a ha).1⟩
    · intro j hj
      rw [List.mem_append, List.mem_singleton] at hj
      rcases hj with hj | hj
      · obtain ⟨h1, h2, h3⟩ := hInv.pool j hj
        exact ⟨by omega, h2, h3⟩
      · subst hj
        exact ⟨Nat.lt_succ_self j, hr, hInv.future j (Nat.le_refl j)⟩
    · intro L d
      rw [hInv.lakes L d]
      constructor
      · rintro ⟨hL0, hdlt, hrd, hnone⟩
        refine ⟨hL0, by omega, hrd, ?_⟩
        intro k hk1 hk2
        rcases Nat.lt_or_ge k i with hki | hki
        · exact hnone k hk1 hki
        · have : k = i := by omega
          subst this
          rw [hr]
          omega
      · rintro ⟨hL0, hdlt, hrd, hnone⟩
        have hdi : d < i := by
          rcases Nat.lt_or_ge d i with h1 | h1
          · exact h1
          · have : d = i := by omega
            subst this
            rw [hr] at hrd
            omega
        exact ⟨hL0, hdi, hrd, fun k hk1 hk2 => hnone k hk1 (by omega)⟩
    · exact hInv.rainy
    · intro j hj hrj
      rcases Nat.lt_or_ge j i with hji | hji
      · rcases hInv.dryDone j hji hrj with h | h
        · exact Or.inl (List.mem_append_left _ h)
        · exact Or.inr h
      · have : j = i := by omega
        subst this
        exact Or.inl (List.mem_append_right _ (List.mem_singleton_self j))
    · intro j hj
      exact hInv.future j (by omega)
    · intro j hj
      obtain ⟨h0, L, d2, i2, hval, hL0, hd2, hji2, hi2, hrd2, hri2, hnol⟩ :=
        hInv.assigned j hj
      exact ⟨h0, L, d2, i2, hval, hL0, hd2, hji2, by omega, hrd2, hri2, hnol⟩
  · cases hf : s.full_lakes (rains.getD i 0) with
    | none =>
        rw [step_not_full rains s i hr hf] at hstep
        have hs1 : s1 = { s with
            full_lakes := fun l => if l = rains.getD i 0 then some i else s.full_lakes l } :=
          (Option.some.inj hstep).symm
        subst hs1
        constructor
        · exact hInv.len
        · exact hInv.sorted
        · intro j hj
          obtain ⟨h1, h2, h3⟩ := hInv.pool j hj
          exact ⟨by omega, h2, h3⟩
        · exact lakes_update rains i s.full_lakes hInv.lakes hr
        · exact hInv.rainy
        · intro j hj hrj
          rcases Nat.lt_or_ge j i with hji | hji
          · exact hInv.dryDone j hji hrj
          · have : j = i := by omega
            subst this
            exact absurd hrj hr
        · intro j hj
          exact hInv.future j (by omega)
        · intro j hj
          obtain ⟨h0, L, d2, i2, hval, hL0, hd2, hji2, hi2, hrd2, hri2, hnol⟩ :=
            hInv.assigned j hj
          exact ⟨h0, L, d2, i2, hval, hL0, hd2, hji2, by omega, hrd2, hri2, hnol⟩
    | some d =>
        by_cases hidx : bisect_right s.dry_days d < s.dry_days.length
        · rw [step_rescue rains s i d hr hf hidx] at hstep
          set j0 := s.dry_days.get ⟨bisect_right s.dry_days d, hidx⟩ with hj0
          have hs1 : s1 =
              { result := s.result.set j0 (Int.ofNat (rains.getD i 0)),
                full_lakes := fun l => if l = rains.getD i 0 then some i else s.full_lakes l,
                dry_days := s.dry_days.eraseIdx (bisect_right s.dry_days d) } :=
            (Option.some.inj hstep).symm
          subst hs1
          have hj0mem : j0 ∈ s.dry_days := by
            rw [hj0]
            exact List.get_mem _ _ _
          obtain ⟨hj0i, hj0rain, hj0res⟩ := hInv.pool j0 hj0mem
          have hj0len : j0 < s.result.length := by
            rw [hInv.len]; omega
          have hnd : s.dry_days.Nodup := pool_nodup hInv.sorted
          constructor
          · simpa using hInv.len
          · exact hInv.sorted.sublist (List.eraseIdx_sublist _ _)
          · intro j hj
            have hjmem : j ∈ s.dry_days := List.eraseIdx_subset _ _ hj
            obtain ⟨h1, h2, h3⟩ := hInv.pool j hjmem
            have hne : j ≠ j0 := ne_get_of_mem_eraseIdx hnd hidx hj
            rw [getD_set_ne _ _ _ _ (fun hc => hne hc.symm)]
            exact ⟨by omega, h2, h3⟩
          · exact lakes_update rains i s.full_lakes hInv.lakes hr
          · intro j hrj
            have hne : j0 ≠ j := fun hc => hrj (hc ▸ hj0rain)
            rw [getD_set_ne _ _ _ _ hne]
            exact hInv.rainy j hrj
          · intro j hj hrj
            rcases Nat.lt_or_ge j i with hji | hji
            · rcases hInv.dryDone j hji hrj with hmem | hpos
              · by_cases hne : j = j0
                · subst hne
                  rw [getD_set_self _ _ _ hj0len]
                  right
                  exact Int.ofNat_pos.mpr (Nat.pos_of_ne_zero hr)
                · left
                  exact mem_eraseIdx_of_ne hmem hidx hne
              · right
                have hne : j0 ≠ j := by
                  intro hc
                  rw [hc] at hj0res
                  omega
                rw [getD_set_ne _ _ _ _ hne]
                exact hpos
            · have : j = i := by omega
              subst this
              exact absurd hrj hr
          · intro j hj
            have hne : j0 ≠ j := by omega
            rw [getD_set_ne _ _ _ _ hne]
            exact hInv.future j (by omega)
          · intro j hj
            by_cases hje : j = j0
            · obtain ⟨hL0i, hdlt, hrdi, hnoli⟩ :=
                (hInv.lakes (rains.getD i 0) d).mp hf
              have hdj : d < j := by
                rw [hje, hj0]
                exact bisect_right_get_gt s.dry_days d hidx
              have hji : j < i := by
                rw [hje]
                exact hj0i
              have hrainj : rains.getD j 0 = 0 := by
                rw [hje]
                exact hj0rain
              have hvalj : (s.result.set j0 (Int.ofNat (rains.getD i 0))).getD j (-1) =
                  Int.ofNat (rains.getD i 0) := by
                rw [hje]
                exact getD_set_self _ _ _ hj0len
              exact ⟨hrainj, rains.getD i 0, d, i, hvalj, hL0i, hdj, hji,
                Nat.lt_succ_self i, hrdi, rfl, hnoli⟩
            · have hne : j0 ≠ j := fun hc => hje hc.symm
              rw [getD_set_ne _ _ _ _ hne] at hj ⊢
              obtain ⟨h0, L, d2, i2, hval, hL0, hd2, hji2, hi2, hrd2, hri2, hnol⟩ :=
                hInv.assigned j hj
              exact ⟨h0, L, d2, i2, hval, hL0, hd2, hji2, by omega, hrd2, hri2, hnol⟩
        · rw [step_fail rains s i d hr hf hidx] at hstep
          cases hstep

theorem runDays_cons_some (rains : List Nat) (i : Nat) (rest : List Nat) (s t : St)
    (h : runDays rains (i :: rest) s = some t) :
    ∃ s1, step rains s i = some s1 ∧ runDays rains rest s1 = some t := by
  cases hstep : step rains s i with
  | none =>
      simp only [runDays, hstep] at h
      exact Option.noConfusion h
  | some s1 =>
      simp only [runDays, hstep] at h
      exact ⟨s1, rfl, h⟩

theorem runDays_inv (rains : List Nat) :
    ∀ (k i : Nat) (s t : St), Inv rains i s → i + k ≤ rains.length →
      runDays rains (List.range' i k) s = some t → Inv rains (i + k) t := by
  intro k
  induction k with
  | zero =>
      intro i s t hInv hn hrun
      rw [List.range'_zero] at hrun
      simp only [runDays] at hrun
      exact (Option.some.inj hrun) ▸ hInv
  | succ k ih =>
      intro i s t hInv hn hrun
      rw [List.range'_succ] at hrun
      obtain ⟨s1, hstep, hrest⟩ := runDays_cons_some rains i _ s t hrun
      have hInv1 := step_preserves rains i s s1 (by omega) hInv hstep
      have hfin := ih (i + 1) s1 t hInv1 (by omega) hrest
      have heq : i + 1 + k = i + (k + 1) := by omega
      rw [heq] at hfin
      exact hfin

theorem step_persist (rains : List Nat) (i : Nat) (s s1 : St)
    (hInv : Inv rains i s) (hstep : step rains s i = some s1)
    (j : Nat) (v : Int) (hv : v ≠ -1) (hj : s.result.getD j (-1) = v) :
    s1.result.getD j (-1) = v := by
  by_cases hr : rains.getD i 0 = 0
  · rw [step_dry rains s i hr] at hstep
    rw [← Option.some.inj hstep]
    exact hj
  · cases hf : s.full_lakes (rains.getD i 0) with
    | none =>
        rw [step_not_full rains s i hr hf] at hstep
        rw [← Option.some.inj hstep]
        exact hj
    | some d =>
        by_cases hidx : bisect_right s.dry_days d < s.dry_days.length
        · rw [step_rescue rains s i d hr hf hidx] at hstep
          rw [← Option.some.inj hstep]
          have hj0mem : s.dry_days.get ⟨bisect_right s.dry_days d, hidx⟩ ∈ s.dry_days :=
            List.get_mem _ _ _
          have hj0res := (hInv.pool _ hj0mem).2.2
          have hne : s.dry_days.get ⟨bisect_right s.dry_days d, hidx⟩ ≠ j := by
            intro hc
            rw [hc, hj] at hj0res
            exact hv hj0res
          exact (getD_set_ne _ _ _ _ hne).trans hj
        · rw [step_fail rains s i d hr hf hidx] at hstep
          cases hstep

theorem runDays_persist (rains : List Nat) :
    ∀ (k i : Nat) (s t : St), Inv rains i s → i + k ≤ rains.length →
      runDays rains (List.range' i k) s = some t →
      ∀ (j : Nat) (v : Int), v ≠ -1 → s.result.getD j (-1) = v →
        t.result.getD j (-1) = v := by
  intro k
  induction k with
  | zero =>
      intro i s t hInv hn hrun j v hv hj
      rw [List.range'_zero] at hrun
      simp only [runDays] at hrun
      exact (Option.some.inj hrun) ▸ hj
  | succ k ih =>
      intro i s t hInv hn hrun j v hv hj
      rw [List.range'_succ] at hrun
      obtain ⟨s1, hstep, hrest⟩ := runDays_cons_some rains i _ s t hrun
      have hInv1 := step_preserves rains i s s1 (by omega) hInv hstep
      exact ih (i + 1) s1 t hInv1 (by omega) hrest j v hv
        (step_persist rains i s s1 hInv hstep j v hv hj)

theorem step_no_reentry (rains : List Nat) (i : Nat) (s s1 : St)
    (hstep : step rains s i = some s1) (j : Nat) (hne : j ≠ i)
    (hmem : j ∉ s.dry_days) : j ∉ s1.dry_days := by
  by_cases hr : rains.getD i 0 = 0
  · rw [step_dry rains s i hr] at hstep
    rw [← Option.some.inj hstep]
    intro hc
    rw [List.mem_append, List.mem_singleton] at hc
    rcases hc with hc | hc
    · exact hmem hc
    · exact hne hc
  · cases hf : s.full_lakes (rains.getD i 0) with
    | none =>
        rw [step_not_full rains s i hr hf] at hstep
        rw [← Option.some.inj hstep]
        exact hmem
    | some d =>
        by_cases hidx : bisect_right s.dry_days d < s.dry_days.length
        · rw [step_rescue rains s i d hr hf hidx] at hstep
          rw [← Option.some.inj hstep]
          intro hc
          exact hmem (List.eraseIdx_subset _ _ hc)
        · rw [step_fail rains s i d hr hf hidx] at hstep
          cases hstep

theorem runDays_no_reentry (rains : List Nat) :
    ∀ (k i : Nat) (s t : St),
      runDays rains (List.range' i k) s = some t →
      ∀ j, j < i → j ∉ s.dry_days → j ∉ t.dry_days := by
  intro k
  induction k with
  | zero =>
      intro i s t hrun j hji hmem
      rw [List.range'_zero] at hrun
      simp only [runDays] at hrun
      exact (Option.some.inj hrun) ▸ hmem
  | succ k ih =>
      intro i s t hrun j hji hmem
      rw [List.range'_succ] at hrun
      obtain ⟨s1, hstep, hrest⟩ := runDays_cons_some rains i _ s t hrun
      exact ih (i + 1) s1 t hrest j (by omega)
        (step_no_reentry rains i s s1 hstep j (by omega) hmem)

theorem foldl_set_length (ds : List Nat) (r : List Int) :
    (ds.foldl (fun res day => res.set day 1) r).length = r.length := by
  induction ds generalizing r with
  | nil => rfl
  | cons d rest ih => simpa using ih (r.set d 1)

theorem foldl_set_getD_not_mem (ds : List Nat) (r : List Int) (j : Nat)
    (h : j ∉ ds) :
    (ds.foldl (fun res day => res.set day 1) r).getD j (-1) = r.getD j (-1) := by
  induction ds generalizing r with
  | nil => rfl
  | cons d rest ih =>
      rw [List.mem_cons] at h
      push_neg at h
      simp only [List.foldl_cons]
      rw [ih (r.set d 1) h.2]
      exact getD_set_ne _ _ _ _ (fun hc => h.1 hc.symm)

theorem foldl_set_getD_mem (ds : List Nat) (r : List Int) (j : Nat)
    (hmem : j ∈ ds) (hlen : j < r.length) :
    (ds.foldl (fun res day => res.set day 1) r).getD j (-1) = 1 := by
  induction ds generalizing r with
  | nil => cases hmem
  | cons d rest ih =>
      simp only [List.foldl_cons]
      by_cases hrest : j ∈ rest
      · exact ih (r.set d 1) hrest (by simpa using hlen)
      · rw [List.mem_cons] at hmem
        have hd : j = d := by
          rcases hmem with h | h
          · exact h
          · exact absurd h hrest
        subst hd
        rw [foldl_set_getD_not_mem rest (r.set j 1) j hrest]
        exact getD_set_self _ _ _ hlen

theorem finalize_length (s : St) : (finalize s).length = s.result.length :=
  foldl_set_length _ _

theorem finalize_getD_not_mem (s : St) (j : Nat) (h : j ∉ s.dry_days) :
    (finalize s).getD j (-1) = s.result.getD j (-1) :=
  foldl_set_getD_not_mem _ _ _ h

theorem finalize_getD_mem (s : St) (j : Nat) (hmem : j ∈ s.dry_days)
    (hlen : j < s.result.length) : (finalize s).getD j (-1) = 1 :=
  foldl_set_getD_mem _ _ _ hmem hlen

/-- A non-sentinel return means the scan completed: the result is the
finalized final state. -/
theorem avoidFlood_some (rains : List Nat) (h : avoidFlood rains ≠ []) :
    ∃ t, runDays rains (List.range rains.length) (initSt rains.length) = some t ∧
      avoidFlood rains = finalize t := by
  unfold avoidFlood at h ⊢
  cases hrun : runDays rains (List.range rains.length) (initSt rains.length) with
  | none => rw [hrun] at h; exact absurd rfl h
  | some t => exact ⟨t, rfl, rfl⟩

/-- Every consecutive pair of rains on the same lake has, strictly between
its two days, a dry day on which the plan empties that lake. -/
def Rescued (rains : List Nat) (plan : List Int) : Prop :=
  ∀ L d i, 0 < L → d < i → i < rains.length →
    rains.getD d 0 = L → rains.getD i 0 = L →
    (∀ k, d < k → k < i → rains.getD k 0 ≠ L) →
    ∃ j, d < j ∧ j < i ∧ rains.getD j 0 = 0 ∧ plan.getD j (-1) = Int.ofNat L

/-- Replay invariant: every currently-full lake last received rain on a day
`d` before `i`, with no later rain on it and no emptying of it scheduled
between `d` and `i`. -/
def RInv (rains : List Nat) (plan : List Int) (i : Nat) (full : Nat → Bool) : Prop :=
  ∀ L, full L = true → 0 < L ∧ ∃ d, d < i ∧ rains.getD d 0 = L ∧
    (∀ k, d < k → k < i → rains.getD k 0 ≠ L) ∧
    (∀ k, d < k → k < i → ¬(rains.getD k 0 = 0 ∧ plan.getD k (-1) = Int.ofNat L))

theorem replayGo_sound (rains : List Nat) (plan : List Int)
    (hres : Rescued rains plan) :
    ∀ (k i : Nat) (full : Nat → Bool), RInv rains plan i full →
      i + k ≤ rains.length →
      replayGo rains plan (List.range' i k) full = true := by
  intro k
  induction k with
  | zero =>
      intro i full hRI hn
      rw [List.range'_zero]
      rfl
  | succ k ih =>
      intro i full hRI hn
      rw [List.range'_succ]
      by_cases hr : rains.getD i 0 = 0
      · simp only [replayGo]
        rw [if_pos hr]
        by_cases hp : (0 : Int) < plan.getD i (-1)
        · rw [if_pos hp]
          apply ih (i + 1) _ ?_ (by omega)
          intro L hL1
          simp only at hL1
          by_cases hLp : L = (plan.getD i (-1)).toNat
          · rw [if_pos hLp] at hL1
            cases hL1
          · rw [if_neg hLp] at hL1
            obtain ⟨hL0, d, hd, hrd, hnol, hnoe⟩ := hRI L hL1
            refine ⟨hL0, d, by omega, hrd, ?_, ?_⟩
            · intro m hm1 hm2
              rcases Nat.lt_or_ge m i with hmi | hmi
              · exact hnol m hm1 hmi
              · have hmi2 : m = i := by omega
                subst hmi2
                rw [hr]
                omega
            · intro m hm1 hm2
              rcases Nat.lt_or_ge m i with hmi | hmi
              · exact hnoe m hm1 hmi
              · have hmi2 : m = i := by omega
                subst hmi2
                rintro ⟨-, hpe⟩
                apply hLp
                rw [hpe]
                exact (Int.toNat_ofNat L).symm
        · rw [if_neg hp]
          apply ih (i + 1) _ ?_ (by omega)
          intro L hL1
          obtain ⟨hL0, d, hd, hrd, hnol, hnoe⟩ := hRI L hL1
          refine ⟨hL0, d, by omega, hrd, ?_, ?_⟩
          · intro m hm1 hm2
            rcases Nat.lt_or_ge m i with hmi | hmi
            · exact hnol m hm1 hmi
            · have hmi2 : m = i := by omega
              subst hmi2
              rw [hr]
              omega
          · intro m hm1 hm2
            rcases Nat.lt_or_ge m i with hmi | hmi
            · exact hnoe m hm1 hmi
            · have hmi2 : m = i := by omega
              subst hmi2
              rintro ⟨-, hpe⟩
              rw [hpe] at hp
              exact hp (Int.ofNat_pos.mpr hL0)
      · simp only [replayGo]
        rw [if_neg hr]
        have hfull : full (rains.getD i 0) = false := by
          by_contra hc
          have hc2 : full (rains.getD i 0) = true := by
            cases hb : full (rains.getD i 0)
            · exact absurd hb hc
            · rfl
          obtain ⟨hL0, d, hd, hrd, hnol, hnoe⟩ := hRI _ hc2
          obtain ⟨j, hdj, hji, hj0, hpj⟩ :=
            hres (rains.getD i 0) d i hL0 hd (by omega) hrd rfl hnol
          exact (hnoe j hdj hji) ⟨hj0, hpj⟩
        rw [hfull]
        simp only [Bool.false_eq_true, if_false]
        apply ih (i + 1) _ ?_ (by omega)
        intro L hL1
        simp only at hL1
        by_cases hLr : L = rains.getD i 0
        · refine ⟨?_, i, Nat.lt_succ_self i, hLr.symm, ?_, ?_⟩
          · have : rains.getD i 0 ≠ 0 := hr
            omega
          · intro m hm1 hm2
            omega
          · intro m hm1 hm2
            omega
        · rw [if_neg hLr] at hL1
          obtain ⟨hL0, d, hd, hrd, hnol, hnoe⟩ := hRI L hL1
          refine ⟨hL0, d, by omega, hrd, ?_, ?_⟩
          · intro m hm1 hm2
            rcases Nat.lt_or_ge m i with hmi | hmi
            · exact hnol m hm1 hmi
            · have hmi2 : m = i := by omega
              subst hmi2
              exact fun hc => hLr hc.symm
          · intro m hm1 hm2
            rcases Nat.lt_or_ge m i with hmi | hmi
            · exact hnoe m hm1 hmi
            · have hmi2 : m = i := by omega
              subst hmi2
              rintro ⟨h0, -⟩
              exact hr h0

theorem noFlood_of_rescued (rains : List Nat) (plan : List Int)
    (h : Rescued rains plan) : noFlood rains plan = true := by
  unfold noFlood
  rw [List.range_eq_range']
  exact replayGo_sound rains plan h rains.length 0 (fun _ => false)
    (fun L hL => Bool.noConfusion hL) (by omega)

/-- Along a successful scan, each consecutive same-lake rain pair whose
second day lies in the scanned range gets a rescue entry in the result. -/
theorem runDays_pairs (rains : List Nat) :
    ∀ (k i : Nat) (s t : St), Inv rains i s → i + k ≤ rains.length →
      runDays rains (List.range' i k) s = some t →
      ∀ L d i2, 0 < L → i ≤ i2 → i2 < i + k → d < i2 →
        rains.getD d 0 = L → rains.getD i2 0 = L →
        (∀ m, d < m → m < i2 → rains.getD m 0 ≠ L) →
        ∃ j, d < j ∧ j < i2 ∧ rains.getD j 0 = 0 ∧
          t.result.getD j (-1) = Int.ofNat L := by
  intro k
  induction k with
  | zero =>
      intro i s t hInv hn hrun L d i2 hL hii2 hi2k
      omega
  | succ k ih =>
      intro i s t hInv hn hrun L d i2 hL hii2 hi2k hdi2 hrd hri2 hnone
      rw [List.range'_succ] at hrun
      obtain ⟨s1, hstep, hrest⟩ := runDays_cons_some rains i _ s t hrun
      have hInv1 := step_preserves rains i s s1 (by omega) hInv hstep
      rcases Nat.eq_or_lt_of_le hii2 with heq | hlt
      · subst heq
        have hfull : s.full_lakes L = some d :=
          (hInv.lakes L d).mpr ⟨hL, hdi2, hrd, hnone⟩
        have hr : rains.getD i 0 ≠ 0 := by
          rw [hri2]
          omega
        have hfull2 : s.full_lakes (rains.getD i 0) = some d := by
          rw [hri2]
          exact hfull
        by_cases hidx : bisect_right s.dry_days d < s.dry_days.length
        · rw [step_rescue rains s i d hr hfull2 hidx] at hstep
          have hs1 : s1 =
              { result := s.result.set (s.dry_days.get ⟨bisect_right s.dry_days d, hidx⟩)
                  (Int.ofNat (rains.getD i 0)),
                full_lakes := fun l => if l = rains.getD i 0 then some i else s.full_lakes l,
                dry_days := s.dry_days.eraseIdx (bisect_right s.dry_days d) } :=
            (Option.some.inj hstep).symm
          set j0 := s.dry_days.get ⟨bisect_right s.dry_days d, hidx⟩ with hj0
          have hj0mem : j0 ∈ s.dry_days := by
            rw [hj0]
            exact List.get_mem _ _ _
          obtain ⟨hj0i, hj0rain, -⟩ := hInv.pool j0 hj0mem
          have hdj0 : d < j0 := bisect_right_get_gt s.dry_days d hidx
          have hj0len : j0 < s.result.length := by
            rw [hInv.len]
            omega
          have hval : s1.result.getD j0 (-1) = Int.ofNat L := by
            rw [hs1]
            simp only
            rw [getD_set_self _ _ _ hj0len, hri2]
          have hvne : Int.ofNat L ≠ -1 := by
            have hpos : (0 : Int) < Int.ofNat L := Int.ofNat_pos.mpr hL
            omega
          refine ⟨j0, hdj0, hj0i, hj0rain, ?_⟩
          exact runDays_persist rains k (i + 1) s1 t hInv1 (by omega) hrest
            j0 (Int.ofNat L) hvne hval
        · rw [step_fail rains s i d hr hfull2 hidx] at hstep
          cases hstep
      · exact ih (i + 1) s1 t hInv1 (by omega) hrest L d i2 hL hlt (by omega)
          hdi2 hrd hri2 hnone

/-- Shared by C7 and C10: on a feasible run every dry day of the returned
schedule carries a positive lake id. -/
theorem avoidFlood_dry_pos (rains : List Nat) (h : avoidFlood rains ≠ [])
    (i : Nat) (hi : i < rains.length) (hr : rains.getD i 0 = 0) :
    0 < (avoidFlood rains).getD i (-1) := by
  obtain ⟨t, hrun, heq⟩ := avoidFlood_some rains h
  rw [List.range_eq_range'] at hrun
  have hInvT := runDays_inv rains rains.length 0 (initSt rains.length) t
    (Inv_init rains) (by omega) hrun
  rcases hInvT.dryDone i (by omega) hr with hmem | hpos
  · rw [heq, finalize_getD_mem t i hmem (by rw [hInvT.len]; omega)]
    omega
  · have hmem : i ∉ t.dry_days := by
      intro hc
      have := (hInvT.pool i hc).2.2
      omega
    rw [heq, finalize_getD_not_mem t i hmem]
    exact hpos

/-- C1: whenever `avoidFlood` returns a non-empty schedule, replaying the
rain sequence while emptying, on each dry day, the lake named by the
schedule never floods any lake. -/
theorem avoidFlood_never_floods (rains : List Nat) (h : avoidFlood rains ≠ []) :
    noFlood rains (avoidFlood rains) = true := by
  obtain ⟨t, hrun, heq⟩ := avoidFlood_some rains h
  rw [List.range_eq_range'] at hrun
  have hInvT := runDays_inv rains rains.length 0 (initSt rains.length) t
    (Inv_init rains) (by omega) hrun
  rw [heq]
  apply noFlood_of_rescued
  intro L d i hL hdi hin hrd hri hnol
  obtain ⟨j, hdj, hji, hj0, hval⟩ := runDays_pairs rains rains.length 0
    (initSt rains.length) t (Inv_init rains) (by omega) hrun L d i hL
    (by omega) (by omega) hdi hrd hri hnol
  have hnotmem : j ∉ t.dry_days := by
    intro hc
    have hres := (hInvT.pool j hc).2.2
    rw [hval] at hres
    have hpos : (0 : Int) < Int.ofNat L := Int.ofNat_pos.mpr hL
    omega
  refine ⟨j, hdj, hji, hj0, ?_⟩
  rw [finalize_getD_not_mem t j hnotmem]
  exact hval

theorem avoidFlood_never_floods_witness :
    avoidFlood [1, 0, 1] ≠ [] ∧ noFlood [1, 0, 1] (avoidFlood [1, 0, 1]) = true :=
  ⟨by decide, avoidFlood_never_floods [1, 0, 1] (by decide)⟩

/-- C2 (counterexample): contrary to the spec example, the plan for
`[1,2,0,1,2]` does not carry value 1 at index 2 — the input is infeasible
(lake 2 rains on days 1 and 4 and the sole dry day is spent on lake 1),
so the function returns the empty sentinel. -/
theorem example_12012_claim_false :
    (avoidFlood [1, 2, 0, 1, 2]).getD 2 (-1) ≠ 1 := by decide

/-- C2 (amended): `avoidFlood [1,2,1]` is infeasible (empty sentinel),
`avoidFlood [1,2,3,4] = [-1,-1,-1,-1]`, and `avoidFlood [1,2,0,1,2]` is
infeasible (empty sentinel) as well. -/
theorem concrete_examples :
    avoidFlood [1, 2, 1] = [] ∧
    avoidFlood [1, 2, 3, 4] = [-1, -1, -1, -1] ∧
    avoidFlood [1, 2, 0, 1, 2] = [] := by decide

/-- C3: the only failure mode is infeasibility.  `step` fails exactly when
the day rains on a lake recorded full and no pooled dry day lies strictly
after the lake's last-full day; a failing step aborts the remaining days at
once; an aborted loop makes `avoidFlood` return the `[]` sentinel (the
embedding is a total function, so no other error can arise). -/
theorem infeasible_only (rains : List Nat) (s : St) (i : Nat) :
    (step rains s i = none ↔
      rains.getD i 0 ≠ 0 ∧ ∃ d, s.full_lakes (rains.getD i 0) = some d ∧
        ∀ j ∈ s.dry_days, j ≤ d) ∧
    (step rains s i = none → ∀ rest, runDays rains (i :: rest) s = none) ∧
    (runDays rains (List.range rains.length) (initSt rains.length) = none →
      avoidFlood rains = []) := by
  refine ⟨⟨?_, ?_⟩, ?_, ?_⟩
  · intro hnone
    by_cases hr : rains.getD i 0 = 0
    · rw [step_dry rains s i hr] at hnone
      cases hnone
    · refine ⟨hr, ?_⟩
      cases hf : s.full_lakes (rains.getD i 0) with
      | none =>
          rw [step_not_full rains s i hr hf] at hnone
          cases hnone
      | some d =>
          by_cases hidx : bisect_right s.dry_days d < s.dry_days.length
          · rw [step_rescue rains s i d hr hf hidx] at hnone
            cases hnone
          · refine ⟨d, rfl, ?_⟩
            have hlen : bisect_right s.dry_days d = s.dry_days.length := by
              have := bisect_right_le_length s.dry_days d
              omega
            exact (bisect_right_eq_length_iff s.dry_days d).mp hlen
  · rintro ⟨hr, d, hf, hall⟩
    have hlen : bisect_right s.dry_days d = s.dry_days.length :=
      (bisect_right_eq_length_iff s.dry_days d).mpr hall
    exact step_fail rains s i d hr hf (by omega)
  · intro hnone rest
    simp only [runDays, hnone]
  · intro hnone
    unfold avoidFlood
    rw [hnone]

theorem infeasible_only_witness : avoidFlood [1, 2, 1] = [] :=
  (infeasible_only [1, 2, 1] (initSt 3) 0).2.2 rfl

/-- C4: when a full lake (full since day `d`) rains again, the dry day the
rescue assigns — and marks with the lake's id — is the least member of the
current dry-day pool strictly greater than `d`. -/
theorem step_picks_earliest (rains : List Nat) (s : St) (i d : Nat)
    (hs : s.dry_days.Pairwise (· < ·))
    (hL : rains.getD i 0 ≠ 0)
    (hfull : s.full_lakes (rains.getD i 0) = some d)
    (hidx : bisect_right s.dry_days d < s.dry_days.length) :
    ∃ j s1, step rains s i = some s1 ∧
      j ∈ s.dry_days ∧ d < j ∧ (∀ m ∈ s.dry_days, d < m → j ≤ m) ∧
      s1.result = s.result.set j (Int.ofNat (rains.getD i 0)) ∧
      s1.dry_days = s.dry_days.eraseIdx (bisect_right s.dry_days d) := by
  refine ⟨s.dry_days.get ⟨bisect_right s.dry_days d, hidx⟩, _,
    step_rescue rains s i d hL hfull hidx, ?_, ?_, ?_, rfl, rfl⟩
  · exact List.get_mem _ _ _
  · exact bisect_right_get_gt _ _ hidx
  · intro m hm hdm
    exact bisect_right_min s.dry_days d hs hidx m hm hdm

def sampleSt : St :=
  { result := [-1, -1, -1],
    full_lakes := fun l => if l = 1 then some 0 else none,
    dry_days := [1] }

theorem step_picks_earliest_witness :
    sampleSt.dry_days.Pairwise (· < ·) ∧
    ([1, 0, 1] : List Nat).getD 2 0 ≠ 0 ∧
    sampleSt.full_lakes (([1, 0, 1] : List Nat).getD 2 0) = some 0 ∧
    bisect_right sampleSt.dry_days 0 < sampleSt.dry_days.length ∧
    ∃ j s1, step [1, 0, 1] sampleSt 2 = some s1 ∧
      j ∈ sampleSt.dry_days ∧ 0 < j ∧ (∀ m ∈ sampleSt.dry_days, 0 < m → j ≤ m) ∧
      s1.result = sampleSt.result.set j (Int.ofNat (([1, 0, 1] : List Nat).getD 2 0)) ∧
      s1.dry_days = sampleSt.dry_days.eraseIdx (bisect_right sampleSt.dry_days 0) :=
  ⟨by decide, by decide, by decide, by decide,
    step_picks_earliest [1, 0, 1] sampleSt 2 0 (by decide) (by decide)
      (by decide) (by decide)⟩

/-- C5: a non-empty returned schedule has exactly the length of the input
rain schedule. -/
theorem avoidFlood_length (rains : List Nat) (h : avoidFlood rains ≠ []) :
    (avoidFlood rains).length = rains.length := by
  obtain ⟨t, hrun, heq⟩ := avoidFlood_some rains h
  rw [List.range_eq_range'] at hrun
  have hInvT := runDays_inv rains rains.length 0 (initSt rains.length) t
    (Inv_init rains) (by omega) hrun
  rw [heq, finalize_length]
  exact hInvT.len

theorem avoidFlood_length_witness :
    avoidFlood [1, 0, 1] ≠ [] ∧
    (avoidFlood [1, 0, 1]).length = ([1, 0, 1] : List Nat).length :=
  ⟨by decide, avoidFlood_length [1, 0, 1] (by decide)⟩

/-- C6: on a feasible run, every rainy day of the returned schedule holds
`-1`. -/
theorem rainy_days_no_action (rains : List Nat) (h : avoidFlood rains ≠ [])
    (i : Nat) (hi : i < rains.length) (hr : 0 < rains.getD i 0) :
    (avoidFlood rains).getD i (-1) = -1 := by
  obtain ⟨t, hrun, heq⟩ := avoidFlood_some rains h
  rw [List.range_eq_range'] at hrun
  have hInvT := runDays_inv rains rains.length 0 (initSt rains.length) t
    (Inv_init rains) (by omega) hrun
  have hmem : i ∉ t.dry_days := by
    intro hc
    have := (hInvT.pool i hc).2.1
    omega
  rw [heq, finalize_getD_not_mem t i hmem]
  exact hInvT.rainy i (by omega)

theorem rainy_days_no_action_witness :
    avoidFlood [1, 0, 1] ≠ [] ∧ (0 : Nat) < 3 ∧ 0 < ([1, 0, 1] : List Nat).getD 0 0 ∧
    (avoidFlood [1, 0, 1]).getD 0 (-1) = -1 :=
  ⟨by decide, by decide, by decide,
    rainy_days_no_action [1, 0, 1] (by decide) 0 (by decide) (by decide)⟩

/-- C7: on a feasible run, every dry day of the returned schedule holds
either `-1` or a positive lake id, and never `0`. -/
theorem dry_days_valid_action (rains : List Nat) (h : avoidFlood rains ≠ [])
    (i : Nat) (hi : i < rains.length) (hr : rains.getD i 0 = 0) :
    ((avoidFlood rains).getD i (-1) = -1 ∨ 0 < (avoidFlood rains).getD i (-1)) ∧
    (avoidFlood rains).getD i (-1) ≠ 0 := by
  have hpos := avoidFlood_dry_pos rains h i hi hr
  exact ⟨Or.inr hpos, by omega⟩

theorem dry_days_valid_action_witness :
    avoidFlood [1, 0, 1] ≠ [] ∧ (1 : Nat) < 3 ∧ ([1, 0, 1] : List Nat).getD 1 0 = 0 ∧
    (((avoidFlood [1, 0, 1]).getD 1 (-1) = -1 ∨ 0 < (avoidFlood [1, 0, 1]).getD 1 (-1)) ∧
      (avoidFlood [1, 0, 1]).getD 1 (-1) ≠ 0) :=
  ⟨by decide, by decide, by decide,
    dry_days_valid_action [1, 0, 1] (by decide) 1 (by decide) (by decide)⟩

/-- C8: from any state satisfying the scan invariant, a successful run keeps
the dry-day pool strictly ascending, never lets a day that left the pool
re-enter it, and never rewrites a result entry that was already assigned. -/
theorem pool_discipline (rains : List Nat) (i k : Nat) (s t : St)
    (hInv : Inv rains i s) (hn : i + k ≤ rains.length)
    (hrun : runDays rains (List.range' i k) s = some t) :
    t.dry_days.Pairwise (· < ·) ∧
    (∀ j, j < i → j ∉ s.dry_days → j ∉ t.dry_days) ∧
    (∀ j v, v ≠ -1 → s.result.getD j (-1) = v → t.result.getD j (-1) = v) := by
  have hInvT := runDays_inv rains k i s t hInv hn hrun
  exact ⟨hInvT.sorted,
    fun j hji hmem => runDays_no_reentry rains k i s t hrun j hji hmem,
    fun j v hv hj => runDays_persist rains k i s t hInv hn hrun j v hv hj⟩

theorem pool_discipline_witness :
    (0 : Nat) + 1 ≤ ([0] : List Nat).length ∧
    (⟨[-1], fun _ => none, [0]⟩ : St).dry_days.Pairwise (· < ·) :=
  ⟨by decide,
    (pool_discipline [0] 0 1 (initSt 1) ⟨[-1], fun _ => none, [0]⟩
      (Inv_init [0]) (by decide) rfl).1⟩

/-- C9: the empty input yields the empty sequence — the very value used as
the infeasibility sentinel (here also produced for the infeasible input
`[1,2,1]`), so the two outcomes are indistinguishable from the return
value. -/
theorem empty_input_indistinguishable :
    avoidFlood [] = ([] : List Int) ∧ avoidFlood [1, 2, 1] = ([] : List Int) := by
  decide

end AvoidFlood
